import Mathlib

set_option maxHeartbeats 1000000

/-!
Verification of docker-make against its design document.

Part 1 embeds `find_requirements` from `setup.py` (the only source file
present), with Python strings modelled as lists of characters.

Part 2 models the build orchestrator (image descriptors, dependency graph,
build executor, scheduler) from the design document, since the `dmake`
package itself is not among the available sources; every definition in that
part is modelled from the spec and carries a doc comment saying so.

All definitions come first, followed by all theorems.
-/

namespace DockerMake

/-! ### Part 1 definitions: Python strings, and `find_requirements` -/

/-- The whitespace characters removed by Python `str.strip()` (ASCII part). -/
def isPyWhitespace (c : Char) : Bool :=
  c == ' ' || c == '\t' || c == '\n' || c == '\r' || c == '\x0b' || c == '\x0c'

/-- A Python string, modelled as its list of characters. -/
abbrev PyStr := List Char

/-- Python `s.strip()`: remove leading and trailing whitespace. -/
def strip (s : PyStr) : PyStr :=
  ((s.dropWhile isPyWhitespace).reverse.dropWhile isPyWhitespace).reverse

/-- Python `s.startswith('#')`. -/
def startsWithHash : PyStr → Bool
  | [] => false
  | c :: _ => c == '#'

/-- The function `find_requirements` from `setup.py`: iterate over the lines of the file,
strip each line, and append it to the result unless the stripped line starts
with `'#'`. -/
def find_requirements : List PyStr → List PyStr
  | [] => []
  | line :: rest =>
    let l := strip line
    if !startsWithHash l then l :: find_requirements rest
    else find_requirements rest

/-! ### Part 2 definitions: the build orchestrator, modelled from the spec

The `dmake` package itself is not among the available sources (only
`setup.py` is), so every definition below is modelled from the spec
(sections quoted in the doc comments). -/

/-- Modelled from the spec (§3): an Image Descriptor — immutable record of one
image's identity, build context, declared dependencies, tags and push flag. -/
structure ImageDescriptor where
  name : String
  context : String
  depends_on : List String
  tags : List String
  push : Bool
  deriving DecidableEq, Repr

/-- Modelled from the spec (§3): node run-state status. -/
inductive Status where
  | Pending | Ready | Building | Tagging | Pushing | Succeeded | Failed | Skipped
  deriving DecidableEq, Repr

/-- Modelled from the spec (§4.1, §7): graph-construction errors. -/
inductive GraphError where
  | DuplicateName : String → GraphError
  | UnknownDependency : String → GraphError
  | CycleDetected : List String → GraphError
  deriving DecidableEq, Repr

def names (ds : List ImageDescriptor) : List String :=
  ds.map (fun d => d.name)

/-- First name that occurs twice in the list, if any. -/
def findDup : List String → Option String
  | [] => none
  | n :: rest => if n ∈ rest then some n else findDup rest

/-- First `depends_on` entry with no descriptor among `allNames`, if any. -/
def firstUnknownDep (allNames : List String) : List ImageDescriptor → Option String
  | [] => none
  | d :: rest =>
    match d.depends_on.find? (fun m => decide (m ∉ allNames)) with
    | some m => some m
    | none => firstUnknownDep allNames rest

def findUnknown (ds : List ImageDescriptor) : Option String :=
  firstUnknownDep (names ds) ds

/-- Modelled from the spec (§4.1): `ready_set(completed)` — the set of node
names whose `depends_on` are all in `completed` and which are not yet
completed; a pure function of `completed` and the static descriptor set. -/
def readySet (ds : List ImageDescriptor) (completed : List String) : List String :=
  (ds.filter (fun d =>
    decide (∀ m ∈ d.depends_on, m ∈ completed) && decide (d.name ∉ completed))).map
    (fun d => d.name)

def remainingNodes (ds : List ImageDescriptor) (acc : List String) :
    List ImageDescriptor :=
  ds.filter (fun d => decide (d.name ∉ acc))

/-- Modelled from the spec (§2, §4.1): topological layering of the graph by
repeatedly removing the ready set; if no node is ready while some remain, the
remaining nodes are cyclic and are reported under `CycleDetected`. -/
def peelAux (ds : List ImageDescriptor) :
    Nat → List String → Except GraphError (List String)
  | 0, acc =>
    if remainingNodes ds acc = [] then .ok acc
    else .error (.CycleDetected (names (remainingNodes ds acc)))
  | fuel + 1, acc =>
    if remainingNodes ds acc = [] then .ok acc
    else
      if readySet ds acc = [] then
        .error (.CycleDetected (names (remainingNodes ds acc)))
      else peelAux ds fuel (acc ++ readySet ds acc)

/-- Modelled from the spec (§3): the Dependency Graph — the validated
descriptors together with the topological order computed while validating. -/
structure Graph where
  nodes : List ImageDescriptor
  order : List String
  deriving DecidableEq, Repr

/-- Modelled from the spec (§4.1): `build(descriptors)` — fails with
`DuplicateName`, `UnknownDependency` or `CycleDetected`, checked in the order
the contract lists them; on success returns the graph. -/
def buildGraph (ds : List ImageDescriptor) : Except GraphError Graph :=
  match findDup (names ds) with
  | some n => .error (.DuplicateName n)
  | none =>
    match findUnknown ds with
    | some m => .error (.UnknownDependency m)
    | none =>
      match peelAux ds ds.length [] with
      | .error e => .error e
      | .ok ord => .ok ⟨ds, ord⟩

/-- Modelled from the spec (§4.2): the Build Executor as a capability
interface; it decides, per descriptor, whether the build succeeds and, per
tag, whether tagging and pushing succeed. -/
structure Executor where
  buildOk : ImageDescriptor → Bool
  tagOk : ImageDescriptor → String → Bool
  pushOk : ImageDescriptor → String → Bool

/-- Outcome of one executor invocation: which phases were attempted and with
which results. -/
structure ExecResult where
  buildSucceeded : Bool
  tagsAttempted : List String
  tagsApplied : List String
  pushAttempted : List String
  pushSucceeded : List String
  success : Bool
  deriving DecidableEq, Repr

/-- Modelled from the spec (§4.2): `build(descriptor)` — build first; on
success apply every tag independently of the other tags' outcomes; push only
the successfully applied tags when `push` is set; any tag or push failure
makes the node fail overall. -/
def execNode (e : Executor) (d : ImageDescriptor) : ExecResult :=
  if e.buildOk d then
    let applied := d.tags.filter (e.tagOk d)
    let toPush := if d.push then applied else []
    { buildSucceeded := true
      tagsAttempted := d.tags
      tagsApplied := applied
      pushAttempted := toPush
      pushSucceeded := toPush.filter (e.pushOk d)
      success := !(d.tags.any fun t => !e.tagOk d t) &&
                 !(toPush.any fun t => !e.pushOk d t) }
  else
    { buildSucceeded := false
      tagsAttempted := []
      tagsApplied := []
      pushAttempted := []
      pushSucceeded := []
      success := false }

/-- A scheduler event: a node is started (moved to Building), finishes with a
terminal status, or is skipped without invoking the executor. -/
inductive Event where
  | start : String → Event
  | finish : String → Status → Event
  | skip : String → Event
  deriving DecidableEq, Repr

/-- Mutable scheduler state: the per-node status map and the event trace. -/
structure RunState where
  status : String → Status
  trace : List Event

/-- Modelled from the spec (§4.3): one scheduling step for node `d` — if every
declared dependency is Succeeded, the node is started and the executor runs
its pipeline, ending Succeeded or Failed; otherwise the node is Skipped
without invoking the executor. -/
def execStep (e : Executor) (d : ImageDescriptor) (s : RunState) : RunState :=
  if ∀ m ∈ d.depends_on, s.status m = Status.Succeeded then
    let st := if (execNode e d).success then Status.Succeeded else Status.Failed
    { status := fun n => if n = d.name then st else s.status n
      trace := s.trace ++ [Event.start d.name, Event.finish d.name st] }
  else
    { status := fun n => if n = d.name then Status.Skipped else s.status n
      trace := s.trace ++ [Event.skip d.name] }

def descOf (ds : List ImageDescriptor) (n : String) : Option ImageDescriptor :=
  ds.find? (fun d => d.name == n)

/-- Modelled from the spec (§4.3, §5): the scheduler loop, processing nodes in
the topological order computed at graph-build time (the sequential instance of
the bounded worker pool). -/
def runLoop (e : Executor) (ds : List ImageDescriptor) :
    List String → RunState → RunState
  | [], s => s
  | n :: rest, s =>
    match descOf ds n with
    | none => runLoop e ds rest s
    | some d => runLoop e ds rest (execStep e d s)

def initState : RunState :=
  { status := fun _ => Status.Pending, trace := [] }

def finalState (e : Executor) (g : Graph) : RunState :=
  runLoop e g.nodes g.order initState

/-- Modelled from the spec (§3, §6): the Run Report — per-node final status. -/
structure RunReport where
  entries : List (String × Status)
  deriving DecidableEq, Repr

/-- Modelled from the spec (§6): `run(descriptors) → RunReport`, the sole
programmatic entry point; graph-construction errors abort before any build. -/
def run (ds : List ImageDescriptor) (e : Executor) : Except GraphError RunReport :=
  match buildGraph ds with
  | .error err => .error err
  | .ok g => .ok ⟨g.nodes.map (fun d => (d.name, (finalState e g).status d.name))⟩

/-- The scheduler events of a run; empty when graph construction fails. -/
def runTrace (ds : List ImageDescriptor) (e : Executor) : List Event :=
  match buildGraph ds with
  | .error _ => []
  | .ok g => (finalState e g).trace

def isStart : Event → Bool
  | .start _ => true
  | _ => false

/-- How many times the Build Executor was invoked during a run. -/
def executorCalls (ds : List ImageDescriptor) (e : Executor) : Nat :=
  ((runTrace ds e).filter isStart).length

/-- Modelled from the spec (§4.3 step 6): overall run outcome — success only
if every node is Succeeded. -/
def overallSuccess (r : RunReport) : Bool :=
  r.entries.all (fun p => p.2 == Status.Succeeded)

def producedReport (x : Except GraphError RunReport) : Bool :=
  match x with
  | .ok _ => true
  | .error _ => false

def isCycleDetected (x : Except GraphError Graph) : Bool :=
  match x with
  | .error (.CycleDetected _) => true
  | _ => false

def isUnknownDependency (x : Except GraphError Graph) : Bool :=
  match x with
  | .error (.UnknownDependency _) => true
  | _ => false

/-- The relation `DirectDep ds a b`: some descriptor named `a` declares a direct dependency
on `b`. -/
def DirectDep (ds : List ImageDescriptor) (a b : String) : Prop :=
  ∃ d, d ∈ ds ∧ d.name = a ∧ b ∈ d.depends_on

/-- The dependency relation of a descriptor set contains a cycle. -/
def Cyclic (ds : List ImageDescriptor) : Prop :=
  ∃ n, Relation.TransGen (DirectDep ds) n n

/-- A list of names is dependency-sound: every node's declared dependencies
occur strictly before the node in the list. -/
def OrderSound (ds : List ImageDescriptor) (l : List String) : Prop :=
  ∀ o1 n o2, l = o1 ++ n :: o2 → ∀ d, d ∈ ds → d.name = n →
    ∀ m ∈ d.depends_on, m ∈ o1

/-- Position of a name in a list (length of the list if absent). -/
def rank : List String → String → Nat
  | [], _ => 0
  | x :: rest, m => if m = x then 0 else rank rest m + 1

/-- A status is terminal: Succeeded, Failed or Skipped. -/
def Terminal (st : Status) : Prop :=
  st = Status.Succeeded ∨ st = Status.Failed ∨ st = Status.Skipped

/-- The scheduler-loop invariant: how the status map, the event trace and the
set `done` of already-processed node names relate at every point of the run. -/
structure LoopInv (ds : List ImageDescriptor) (e : Executor) (done : List String)
    (s : RunState) : Prop where
  pending_out : ∀ n, n ∉ done → s.status n = Status.Pending
  terminal_in : ∀ n ∈ done, Terminal (s.status n)
  char : ∀ n ∈ done, ∀ d, d ∈ ds → d.name = n →
    ((s.status n = Status.Succeeded ∨ s.status n = Status.Failed) ↔
      (∀ m ∈ d.depends_on, s.status m = Status.Succeeded)) ∧
    (s.status n = Status.Succeeded → (execNode e d).success = true) ∧
    (s.status n = Status.Failed → (execNode e d).success = false) ∧
    (s.status n = Status.Skipped ↔ ∃ m ∈ d.depends_on, s.status m ≠ Status.Succeeded)
  trace_start : ∀ n, Event.start n ∈ s.trace ↔
    (s.status n = Status.Succeeded ∨ s.status n = Status.Failed)
  trace_finish : ∀ n st, Event.finish n st ∈ s.trace ↔
    (s.status n = st ∧ (st = Status.Succeeded ∨ st = Status.Failed))
  trace_skip : ∀ n, Event.skip n ∈ s.trace ↔ s.status n = Status.Skipped
  dep_order : ∀ t1 A t2, s.trace = t1 ++ Event.start A :: t2 →
    ∀ d, d ∈ ds → d.name = A → ∀ m ∈ d.depends_on,
      Event.finish m Status.Succeeded ∈ t1

/-! ### Concrete descriptors and executors used by the witnesses -/

def dBase : ImageDescriptor := ⟨"base", "ctx", [], ["t1"], false⟩

def dApp : ImageDescriptor := ⟨"app", "ctx", ["base"], ["t2"], true⟩

def dTools : ImageDescriptor := ⟨"tools", "ctx", [], [], false⟩

def exampleDs : List ImageDescriptor := [dBase, dApp, dTools]

/-- An executor for which every build, tag and push succeeds. -/
def alwaysOk : Executor := ⟨fun _ => true, fun _ _ => true, fun _ _ => true⟩

/-- An executor that fails the build of `base` and succeeds everywhere else. -/
def failsBase : Executor :=
  ⟨fun d => d.name != "base", fun _ _ => true, fun _ _ => true⟩

/-- A descriptor set with both a 1-cycle (`x`) and an unresolved dependency
(`y` depends on the absent `z`). -/
def cycUnknownDs : List ImageDescriptor :=
  [⟨"x", "ctx", ["x"], [], false⟩, ⟨"y", "ctx", ["z"], [], false⟩]

/-- A descriptor set with a duplicated name (`x`) and an unresolved
dependency (`y` depends on the absent `z`). -/
def dupUnknownDs : List ImageDescriptor :=
  [⟨"x", "ctx", [], [], false⟩, ⟨"x", "ctx", [], [], false⟩,
   ⟨"y", "ctx", ["z"], [], false⟩]

/-- A single descriptor depending on itself. -/
def selfLoopDs : List ImageDescriptor := [⟨"x", "ctx", ["x"], [], false⟩]

/-- A single descriptor with an unresolved dependency. -/
def unknownOnlyDs : List ImageDescriptor := [⟨"y", "ctx", ["z"], [], false⟩]

/-- The graph `buildGraph` computes for `exampleDs`. -/
def gEx : Graph := ⟨exampleDs, ["base", "tools", "app"]⟩

/-- The report `run` produces for `exampleDs` with `alwaysOk`. -/
def rEx : RunReport :=
  ⟨[("base", Status.Succeeded), ("app", Status.Succeeded),
    ("tools", Status.Succeeded)]⟩

/-! ### Theorems about `find_requirements` -/

theorem find_requirements_eq_filter_map (ls : List PyStr) :
    find_requirements ls = (ls.map strip).filter (fun l => !startsWithHash l) := by
  induction ls with
  | nil => rfl
  | cons line rest ih =>
    simp only [find_requirements, List.map_cons, List.filter_cons]
    by_cases h : startsWithHash (strip line) = true
    · simp [h, ih]
    · simp at h
      simp [h, ih]

theorem dropWhile_append_of_all {p : Char → Bool} (l1 l2 : List Char)
    (h : ∀ c ∈ l1, p c = true) :
    (l1 ++ l2).dropWhile p = l2.dropWhile p := by
  induction l1 with
  | nil => rfl
  | cons c l1 ih =>
    have hc : p c = true := h c (by simp)
    simp only [List.cons_append, List.dropWhile_cons, hc, if_true]
    exact ih (fun c hm => h c (by simp [hm]))

theorem dropWhile_all (l : List Char) {p : Char → Bool}
    (h : ∀ c ∈ l, p c = true) : l.dropWhile p = [] := by
  induction l with
  | nil => rfl
  | cons c l ih =>
    have hc : p c = true := h c (by simp)
    simp only [List.dropWhile_cons, hc, if_true]
    exact ih (fun c hm => h c (by simp [hm]))

theorem strip_all_whitespace (ws : PyStr) (h : ∀ c ∈ ws, isPyWhitespace c = true) :
    strip ws = [] := by
  unfold strip
  rw [dropWhile_all ws h]
  rfl

/-- Removing trailing whitespace from a string whose first character is not
whitespace keeps the first character in place. -/
theorem rstrip_cons {p : Char → Bool} (c : Char) (l : List Char) (hc : p c = false) :
    ((c :: l).reverse.dropWhile p).reverse = c :: (l.reverse.dropWhile p).reverse := by
  rw [List.reverse_cons, List.dropWhile_append]
  rcases h : l.reverse.dropWhile p with _ | ⟨x, xs⟩
  · simp [List.dropWhile_cons, hc]
  · simp

theorem startsWithHash_strip_hash (ws rest : PyStr)
    (h : ∀ c ∈ ws, isPyWhitespace c = true) :
    startsWithHash (strip (ws ++ '#' :: rest)) = true := by
  unfold strip
  rw [dropWhile_append_of_all _ _ h]
  have hhash : isPyWhitespace '#' = false := by decide
  rw [List.dropWhile_cons_of_neg (by simp [hhash])]
  rw [rstrip_cons '#' rest hhash]
  simp [startsWithHash]

theorem find_requirements_append (a b : List PyStr) :
    find_requirements (a ++ b) = find_requirements a ++ find_requirements b := by
  induction a with
  | nil => rfl
  | cons line rest ih =>
    simp only [List.cons_append, find_requirements]
    by_cases h : startsWithHash (strip line) = true
    · simp [h, ih]
    · simp at h
      simp [h, ih]

/-! ### Claim theorems for `find_requirements` -/

/-- C9: for every readable input file, `find_requirements` returns the list of
the file's lines, each stripped of leading and trailing whitespace, in file
order, containing exactly those lines whose stripped form does not start with
`'#'`; in particular a line whose first non-whitespace character is `'#'` is
excluded regardless of leading whitespace. -/
theorem c9_find_requirements_strip_filter :
    (∀ ls : List PyStr,
      find_requirements ls = (ls.map strip).filter (fun l => !startsWithHash l)) ∧
    (∀ ws rest : PyStr, (∀ c ∈ ws, isPyWhitespace c = true) →
      find_requirements [ws ++ '#' :: rest] = []) := by
  constructor
  · exact find_requirements_eq_filter_map
  · intro ws rest h
    have hh := startsWithHash_strip_hash ws rest h
    simp only [find_requirements, hh, Bool.not_true]
    simp

/-- Witness for C9: the line `" #x"` (a comment with leading whitespace) is
excluded from the result. -/
theorem c9_find_requirements_strip_filter_witness :
    find_requirements [[' '] ++ '#' :: ['x']] = [] :=
  c9_find_requirements_strip_filter.2 [' '] ['x'] (by decide)

/-- C10: blank and whitespace-only lines are kept, as the empty string, since
the empty string does not start with `'#'`. -/
theorem c10_find_requirements_keeps_blank_lines :
    ∀ (pre : List PyStr) (ws : PyStr) (post : List PyStr),
      (∀ c ∈ ws, isPyWhitespace c = true) →
      find_requirements (pre ++ ws :: post) =
        find_requirements pre ++ [] :: find_requirements post := by
  intro pre ws post h
  have hmid : find_requirements [ws] = [([] : PyStr)] := by
    have hs : strip ws = [] := strip_all_whitespace ws h
    simp [find_requirements, hs, startsWithHash]
  calc find_requirements (pre ++ ws :: post)
      = find_requirements pre ++ find_requirements ([ws] ++ post) := by
        rw [← find_requirements_append]; rfl
    _ = find_requirements pre ++ ([] : PyStr) :: find_requirements post := by
        rw [find_requirements_append, hmid]; rfl

/-- Witness for C10: a file consisting of `"a"`, `" "` (whitespace only) and
`"b"` keeps the blank line as the empty string. -/
theorem c10_find_requirements_keeps_blank_lines_witness :
    find_requirements ([['a']] ++ [' '] :: [['b']]) =
      find_requirements [['a']] ++ [] :: find_requirements [['b']] :=
  c10_find_requirements_keeps_blank_lines [['a']] [' '] [['b']] (by decide)

/-! ### Basic lemmas about the graph machinery -/

theorem mem_readySet_iff (ds : List ImageDescriptor) (completed : List String)
    (n : String) :
    n ∈ readySet ds completed ↔
      ∃ d, d ∈ ds ∧ d.name = n ∧ (∀ m ∈ d.depends_on, m ∈ completed) ∧
        n ∉ completed := by
  simp only [readySet, List.mem_map, List.mem_filter, Bool.and_eq_true,
    decide_eq_true_eq]
  constructor
  · rintro ⟨d, ⟨hd, hdeps, hnc⟩, hname⟩
    exact ⟨d, hd, hname, hdeps, hname ▸ hnc⟩
  · rintro ⟨d, hd, hname, hdeps, hnc⟩
    exact ⟨d, ⟨hd, hdeps, hname ▸ hnc⟩, hname⟩

theorem findDup_eq_none_iff (l : List String) : findDup l = none ↔ l.Nodup := by
  induction l with
  | nil => simp [findDup]
  | cons n rest ih =>
    by_cases h : n ∈ rest
    · simp [findDup, h]
    · simp [findDup, h, ih]

theorem firstUnknownDep_eq_none_iff (ns : List String) (ds : List ImageDescriptor) :
    firstUnknownDep ns ds = none ↔ ∀ d ∈ ds, ∀ m ∈ d.depends_on, m ∈ ns := by
  induction ds with
  | nil => simp [firstUnknownDep]
  | cons d rest ih =>
    simp only [firstUnknownDep]
    rcases hf : d.depends_on.find? (fun m => decide (m ∉ ns)) with _ | m
    · have hall : ∀ m ∈ d.depends_on, m ∈ ns := by
        intro m hm
        have := List.find?_eq_none.mp hf m hm
        simpa using this
      simp only [ih]
      constructor
      · intro h
        intro d' hd' m hm
        rcases List.mem_cons.mp hd' with h1 | h1
        · exact hall m (h1 ▸ hm)
        · exact h d' h1 m hm
      · intro h d' hd' m hm
        exact h d' (List.mem_cons_of_mem _ hd') m hm
    · constructor
      · intro h
        simp at h
      · intro hall
        have h1 := List.find?_some hf
        have h2 := List.mem_of_find?_eq_some hf
        simp only [decide_eq_true_eq] at h1
        exact absurd (hall d (by simp) m h2) h1

theorem findUnknown_eq_none_iff (ds : List ImageDescriptor) :
    findUnknown ds = none ↔ ∀ d ∈ ds, ∀ m ∈ d.depends_on, m ∈ names ds :=
  firstUnknownDep_eq_none_iff (names ds) ds

/-- In a descriptor set with unique names, descriptors are determined by
their name. -/
theorem eq_of_name_eq {ds : List ImageDescriptor} (h : (names ds).Nodup)
    {d d' : ImageDescriptor} (hd : d ∈ ds) (hd' : d' ∈ ds)
    (hn : d.name = d'.name) : d = d' := by
  induction ds with
  | nil => simp at hd
  | cons x rest ih =>
    simp only [names, List.map_cons, List.nodup_cons] at h
    rcases List.mem_cons.mp hd with h1 | h1 <;> rcases List.mem_cons.mp hd' with h2 | h2
    · rw [h1, h2]
    · exfalso
      apply h.1
      rw [h1] at hn
      rw [hn]
      exact List.mem_map_of_mem _ h2
    · exfalso
      apply h.1
      rw [h2] at hn
      rw [← hn]
      exact List.mem_map_of_mem _ h1
    · exact ih h.2 h1 h2

theorem descOf_of_mem_names {ds : List ImageDescriptor} {n : String}
    (h : n ∈ names ds) : ∃ d, descOf ds n = some d ∧ d ∈ ds ∧ d.name = n := by
  induction ds with
  | nil => simp [names] at h
  | cons x rest ih =>
    by_cases hx : x.name = n
    · refine ⟨x, ?_, by simp, hx⟩
      simp [descOf, List.find?_cons, hx]
    · simp only [names, List.map_cons, List.mem_cons] at h
      rcases h with h | h
      · exact absurd h.symm hx
      · obtain ⟨d, hfind, hmem, hname⟩ := ih h
        refine ⟨d, ?_, List.mem_cons_of_mem _ hmem, hname⟩
        simp only [descOf, List.find?_cons] at hfind ⊢
        have : (x.name == n) = false := by simpa using hx
        rw [this]
        exact hfind

/-- Splitting a concatenation at a distinguished element: the element lies in
the left or the right part. -/
theorem append_cons_cases {α : Type} (a b : List α) (n : α) (o1 o2 : List α)
    (h : a ++ b = o1 ++ n :: o2) :
    (∃ o2a, a = o1 ++ n :: o2a ∧ o2 = o2a ++ b) ∨
    (∃ o1b, o1 = a ++ o1b ∧ b = o1b ++ n :: o2) := by
  induction a generalizing o1 with
  | nil =>
    right
    exact ⟨o1, rfl, h⟩
  | cons x a' ih =>
    cases o1 with
    | nil =>
      left
      simp only [List.nil_append] at h ⊢
      obtain ⟨hx, htail⟩ := List.cons.inj h
      exact ⟨a', by rw [hx], htail.symm⟩
    | cons y o1' =>
      simp only [List.cons_append] at h
      obtain ⟨hx, htail⟩ := List.cons.inj h
      rcases ih o1' htail with ⟨o2a, h1, h2⟩ | ⟨o1b, h1, h2⟩
      · left
        refine ⟨o2a, ?_, h2⟩
        rw [hx, h1]
        rfl
      · right
        refine ⟨o1b, ?_, h2⟩
        rw [hx, h1]
        rfl

/-! ### Claim theorem for `ready_set` (C4) -/

/-- C4: `ready_set(completed)` returns exactly the node names whose entire
`depends_on` set is contained in `completed` and which are not themselves in
`completed`; it is a pure function of `completed` and the static descriptor
set, so repeated calls with the same arguments return the same set. -/
theorem c4_readySet_exact (ds : List ImageDescriptor) (completed : List String) :
    (∀ n, n ∈ readySet ds completed ↔
      ∃ d, d ∈ ds ∧ d.name = n ∧ (∀ m ∈ d.depends_on, m ∈ completed) ∧
        n ∉ completed) ∧
    (∀ completed2, completed = completed2 →
      readySet ds completed = readySet ds completed2) := by
  constructor
  · intro n
    exact mem_readySet_iff ds completed n
  · intro completed2 h
    rw [h]

/-- Witness for C4: with `base` completed, `app` is ready in the example
descriptor set. -/
theorem c4_readySet_exact_witness :
    "app" ∈ readySet exampleDs ["base"] ∧
      readySet exampleDs ["base"] = readySet exampleDs ["base"] :=
  ⟨((c4_readySet_exact exampleDs ["base"]).1 "app").mpr
    ⟨dApp, by decide, by decide, by decide, by decide⟩,
   (c4_readySet_exact exampleDs ["base"]).2 ["base"] rfl⟩

/-! ### Claim theorem for the executor pipeline (C7) -/

/-- C7: the executor's phases are attempted only if the prior phase
succeeded — a failed build short-circuits tag and push; every tag is attempted
independently of the other tags' outcomes, but any tag failure fails the node;
push is attempted only for successfully applied tags, and any push failure
fails the node even if build and tag succeeded. -/
theorem c7_execNode_phase_policy (e : Executor) (d : ImageDescriptor) :
    (e.buildOk d = false → (execNode e d).tagsAttempted = [] ∧
      (execNode e d).pushAttempted = [] ∧ (execNode e d).success = false) ∧
    (e.buildOk d = true → (execNode e d).tagsAttempted = d.tags ∧
      (execNode e d).tagsApplied = d.tags.filter (e.tagOk d) ∧
      (execNode e d).pushAttempted =
        (if d.push then (execNode e d).tagsApplied else [])) ∧
    (∀ t ∈ (execNode e d).pushAttempted, t ∈ (execNode e d).tagsApplied) ∧
    (e.buildOk d = true → (∃ t ∈ d.tags, e.tagOk d t = false) →
      (execNode e d).success = false) ∧
    ((∃ t ∈ (execNode e d).pushAttempted, e.pushOk d t = false) →
      (execNode e d).success = false) := by
  by_cases hb : e.buildOk d = true
  · refine ⟨fun h => by rw [h] at hb; exact absurd hb (by simp), ?_, ?_, ?_, ?_⟩
    · intro _
      refine ⟨by simp [execNode, hb], by simp [execNode, hb], ?_⟩
      by_cases hp : d.push = true
      · simp [execNode, hb, hp]
      · simp only [Bool.not_eq_true] at hp
        simp [execNode, hb, hp]
    · intro t ht
      by_cases hp : d.push = true
      · simp only [execNode, hb, if_true, hp] at ht ⊢
        exact ht
      · simp only [Bool.not_eq_true] at hp
        simp [execNode, hb, hp] at ht
    · rintro _ ⟨t, ht, htf⟩
      simp only [execNode, hb, if_true, Bool.and_eq_false_iff]
      left
      have : (d.tags.any fun t => !e.tagOk d t) = true :=
        List.any_eq_true.mpr ⟨t, ht, by simp [htf]⟩
      simp [this]
    · rintro ⟨t, ht, htf⟩
      simp only [execNode, hb, if_true] at ht ⊢
      simp only [Bool.and_eq_false_iff]
      right
      have : ((if d.push = true then d.tags.filter (e.tagOk d) else []).any
          fun t => !e.pushOk d t) = true :=
        List.any_eq_true.mpr ⟨t, ht, by simp [htf]⟩
      simp [this]
  · simp only [Bool.not_eq_true] at hb
    refine ⟨fun _ => ⟨by simp [execNode, hb], by simp [execNode, hb],
      by simp [execNode, hb]⟩,
      fun h => by rw [h] at hb; exact Bool.noConfusion hb, ?_, ?_, ?_⟩
    · intro t ht
      simp [execNode, hb] at ht
    · intro h
      rw [h] at hb
      exact Bool.noConfusion hb
    · rintro ⟨t, ht, _⟩
      simp [execNode, hb] at ht

/-- Witness for C7: a failed build of `base` attempts no tag and no push, and
for `app` every tag is attempted when the build succeeds. -/
theorem c7_execNode_phase_policy_witness :
    ((execNode failsBase dBase).tagsAttempted = [] ∧
      (execNode failsBase dBase).pushAttempted = [] ∧
      (execNode failsBase dBase).success = false) ∧
    (execNode alwaysOk dApp).tagsAttempted = dApp.tags :=
  ⟨(c7_execNode_phase_policy failsBase dBase).1 (by decide),
   ((c7_execNode_phase_policy alwaysOk dApp).2.1 (by decide)).1⟩

/-! ### The topological order produced by `peelAux` -/

theorem orderSound_nil (ds : List ImageDescriptor) : OrderSound ds [] := by
  intro o1 n o2 h
  exact absurd h.symm (by simp)

theorem orderSound_append_ready (ds : List ImageDescriptor)
    (hname : (names ds).Nodup) (acc : List String) (hs : OrderSound ds acc) :
    OrderSound ds (acc ++ readySet ds acc) := by
  intro o1 n o2 heq d hd hdn m hm
  rcases append_cons_cases acc (readySet ds acc) n o1 o2 heq with
    ⟨o2a, h1, _⟩ | ⟨o1b, h1, h2⟩
  · exact hs o1 n o2a h1 d hd hdn m hm
  · have hnr : n ∈ readySet ds acc := by
      rw [h2]
      exact List.mem_append_right _ (List.mem_cons_self _ _)
    obtain ⟨d', hd', hdn', hdeps', _⟩ := (mem_readySet_iff ds acc n).mp hnr
    have hdd : d = d' := eq_of_name_eq hname hd hd' (by rw [hdn, hdn'])
    subst hdd
    rw [h1]
    exact List.mem_append_left _ (hdeps' m hm)

theorem peelAux_ok_sound (ds : List ImageDescriptor) (hname : (names ds).Nodup) :
    ∀ fuel acc ord, OrderSound ds acc → peelAux ds fuel acc = .ok ord →
      OrderSound ds ord := by
  intro fuel
  induction fuel with
  | zero =>
    intro acc ord hs h
    simp only [peelAux] at h
    split at h
    · exact Except.ok.inj h ▸ hs
    · exact Except.noConfusion h
  | succ fuel ih =>
    intro acc ord hs h
    simp only [peelAux] at h
    split at h
    · exact Except.ok.inj h ▸ hs
    · split at h
      · exact Except.noConfusion h
      · exact ih _ _ (orderSound_append_ready ds hname acc hs) h

theorem complete_of_remaining_nil {ds : List ImageDescriptor} {acc : List String}
    (hr : remainingNodes ds acc = []) : ∀ d ∈ ds, d.name ∈ acc := by
  intro d hd
  by_contra hnot
  have hmem : d ∈ remainingNodes ds acc := by
    simp [remainingNodes, List.mem_filter, hd, hnot]
  rw [hr] at hmem
  simp at hmem

theorem peelAux_ok_complete (ds : List ImageDescriptor) :
    ∀ fuel acc ord, peelAux ds fuel acc = .ok ord →
      (∀ n ∈ acc, n ∈ ord) ∧ ∀ d ∈ ds, d.name ∈ ord := by
  intro fuel
  induction fuel with
  | zero =>
    intro acc ord h
    simp only [peelAux] at h
    split at h
    next hr =>
      obtain rfl := Except.ok.inj h
      exact ⟨fun n hn => hn, complete_of_remaining_nil hr⟩
    next => exact Except.noConfusion h
  | succ fuel ih =>
    intro acc ord h
    simp only [peelAux] at h
    split at h
    next hr =>
      obtain rfl := Except.ok.inj h
      exact ⟨fun n hn => hn, complete_of_remaining_nil hr⟩
    next =>
      split at h
      next => exact Except.noConfusion h
      next =>
        obtain ⟨h1, h2⟩ := ih _ _ h
        exact ⟨fun n hn => h1 n (List.mem_append_left _ hn), h2⟩

theorem readySet_nodup (ds : List ImageDescriptor) (hname : (names ds).Nodup)
    (acc : List String) : (readySet ds acc).Nodup := by
  have hsub : (readySet ds acc).Sublist (names ds) := by
    unfold readySet names
    exact List.Sublist.map _ (List.filter_sublist ds)
  exact hname.sublist hsub

theorem peelAux_ok_nodup (ds : List ImageDescriptor) (hname : (names ds).Nodup) :
    ∀ fuel acc ord, acc.Nodup → peelAux ds fuel acc = .ok ord → ord.Nodup := by
  intro fuel
  induction fuel with
  | zero =>
    intro acc ord hn h
    simp only [peelAux] at h
    split at h
    · exact Except.ok.inj h ▸ hn
    · exact Except.noConfusion h
  | succ fuel ih =>
    intro acc ord hn h
    simp only [peelAux] at h
    split at h
    · exact Except.ok.inj h ▸ hn
    · split at h
      · exact Except.noConfusion h
      · refine ih _ _ ?_ h
        rw [List.nodup_append]
        refine ⟨hn, readySet_nodup ds hname acc, ?_⟩
        intro n hnacc hnready
        obtain ⟨d, _, _, _, hnot⟩ := (mem_readySet_iff ds acc n).mp hnready
        exact hnot hnacc

theorem peelAux_ok_mem_names (ds : List ImageDescriptor) :
    ∀ fuel acc ord, (∀ n ∈ acc, n ∈ names ds) → peelAux ds fuel acc = .ok ord →
      ∀ n ∈ ord, n ∈ names ds := by
  intro fuel
  induction fuel with
  | zero =>
    intro acc ord hacc h
    simp only [peelAux] at h
    split at h
    · exact Except.ok.inj h ▸ hacc
    · exact Except.noConfusion h
  | succ fuel ih =>
    intro acc ord hacc h
    simp only [peelAux] at h
    split at h
    · exact Except.ok.inj h ▸ hacc
    · split at h
      · exact Except.noConfusion h
      · refine ih _ _ ?_ h
        intro n hn
        rcases List.mem_append.mp hn with hn | hn
        · exact hacc n hn
        · obtain ⟨d, hd, hdn, _, _⟩ := (mem_readySet_iff ds _ n).mp hn
          exact hdn ▸ List.mem_map_of_mem _ hd

theorem peelAux_error_cycle (ds : List ImageDescriptor) :
    ∀ fuel acc err, peelAux ds fuel acc = .error err →
      ∃ l, err = .CycleDetected l := by
  intro fuel
  induction fuel with
  | zero =>
    intro acc err h
    simp only [peelAux] at h
    split at h
    · exact Except.noConfusion h
    · exact ⟨_, (Except.error.inj h).symm⟩
  | succ fuel ih =>
    intro acc err h
    simp only [peelAux] at h
    split at h
    · exact Except.noConfusion h
    · split at h
      · exact ⟨_, (Except.error.inj h).symm⟩
      · exact ih _ _ h

theorem buildGraph_ok {ds : List ImageDescriptor} {g : Graph}
    (h : buildGraph ds = .ok g) :
    g.nodes = ds ∧ (names ds).Nodup ∧
    (∀ d ∈ ds, ∀ m ∈ d.depends_on, m ∈ names ds) ∧
    peelAux ds ds.length [] = .ok g.order := by
  rcases hd : findDup (names ds) with _ | n
  · rcases hu : findUnknown ds with _ | m
    · rcases hp : peelAux ds ds.length [] with err | ord
      · simp only [buildGraph, hd, hu, hp] at h
        exact Except.noConfusion h
      · simp only [buildGraph, hd, hu, hp] at h
        obtain rfl := Except.ok.inj h
        refine ⟨rfl, (findDup_eq_none_iff _).mp hd,
          (findUnknown_eq_none_iff _).mp hu, ?_⟩
        simp [hp]
    · simp only [buildGraph, hd, hu] at h
      exact Except.noConfusion h
  · simp only [buildGraph, hd] at h
    exact Except.noConfusion h

/-! ### Ranks and acyclicity of the computed order -/

theorem rank_lt_of_mem_left (o1 l2 : List String) (m : String) (h : m ∈ o1) :
    rank (o1 ++ l2) m < o1.length := by
  induction o1 with
  | nil => simp at h
  | cons x o1 ih =>
    by_cases hx : m = x
    · simp only [List.cons_append, rank]
      rw [if_pos hx]
      simp
    · simp only [List.cons_append, rank]
      rw [if_neg hx]
      have hm : m ∈ o1 := by
        rcases List.mem_cons.mp h with h1 | h1
        · exact absurd h1 hx
        · exact h1
      simp only [List.length_cons]
      exact Nat.succ_lt_succ (ih hm)

theorem rank_append_cons (o1 o2 : List String) (n : String) (h : n ∉ o1) :
    rank (o1 ++ n :: o2) n = o1.length := by
  induction o1 with
  | nil => simp [rank]
  | cons x o1 ih =>
    have hx : n ≠ x := by
      intro he
      apply h
      rw [he]
      exact List.mem_cons_self _ _
    simp only [List.cons_append, rank]
    rw [if_neg hx]
    show rank (o1 ++ n :: o2) n + 1 = (x :: o1).length
    rw [ih (fun hm => h (List.mem_cons_of_mem _ hm))]
    simp

theorem rank_lt_of_directDep {ds : List ImageDescriptor} {ord : List String}
    (hsound : OrderSound ds ord) (hnodup : ord.Nodup)
    (hcompl : ∀ d ∈ ds, d.name ∈ ord) {a b : String} (h : DirectDep ds a b) :
    rank ord b < rank ord a := by
  obtain ⟨d, hd, rfl, hb⟩ := h
  obtain ⟨o1, o2, ho⟩ := List.append_of_mem (hcompl d hd)
  have hm : b ∈ o1 := hsound o1 d.name o2 ho d hd rfl b hb
  have hnotin : d.name ∉ o1 := by
    rw [ho] at hnodup
    have hmid := List.nodup_middle.mp hnodup
    intro hmem
    exact (List.nodup_cons.mp hmid).1 (List.mem_append_left _ hmem)
  rw [ho, rank_append_cons o1 o2 d.name hnotin]
  exact rank_lt_of_mem_left o1 _ b hm

theorem not_cyclic_of_ok_peel {ds : List ImageDescriptor} {ord : List String}
    (hname : (names ds).Nodup)
    (hp : peelAux ds ds.length [] = .ok ord) : ¬Cyclic ds := by
  have hsound := peelAux_ok_sound ds hname ds.length [] ord (orderSound_nil ds) hp
  have hnodup := peelAux_ok_nodup ds hname ds.length [] ord List.nodup_nil hp
  have hcompl := (peelAux_ok_complete ds ds.length [] ord hp).2
  rintro ⟨n, hn⟩
  have hdesc : ∀ a b, Relation.TransGen (DirectDep ds) a b →
      rank ord b < rank ord a := by
    intro a b hab
    induction hab with
    | single h => exact rank_lt_of_directDep hsound hnodup hcompl h
    | tail _ h2 ih => exact lt_trans (rank_lt_of_directDep hsound hnodup hcompl h2) ih
  exact lt_irrefl _ (hdesc n n hn)

/-! ### Claim theorems C1 and C6: graph-construction failures -/

/-- C1 counterexample: `cycUnknownDs` has a dependency cycle (`x` depends on
itself), yet graph construction fails with `UnknownDependency` (for `y`'s
absent dependency `z`), not with `CycleDetected`. -/
theorem c1_cycle_detected_counterexample :
    Cyclic cycUnknownDs ∧
    buildGraph cycUnknownDs = .error (.UnknownDependency "z") ∧
    isCycleDetected (buildGraph cycUnknownDs) = false := by
  refine ⟨⟨"x", Relation.TransGen.single ?_⟩, by rfl, by decide⟩
  exact ⟨⟨"x", "ctx", ["x"], [], false⟩, by decide, rfl, by decide⟩

/-- C1 (amended): for every descriptor set with unique names and fully
resolvable dependencies whose dependency relation contains a cycle (including
the 1-cycle of a self-dependency), graph construction fails with
`CycleDetected`, the Build Executor is never invoked, and no RunReport is
produced. -/
theorem c1_cycle_detected_amended (ds : List ImageDescriptor) (e : Executor)
    (hname : (names ds).Nodup)
    (hres : ∀ d ∈ ds, ∀ m ∈ d.depends_on, m ∈ names ds)
    (hcyc : Cyclic ds) :
    isCycleDetected (buildGraph ds) = true ∧
    executorCalls ds e = 0 ∧
    producedReport (run ds e) = false := by
  have hd : findDup (names ds) = none := (findDup_eq_none_iff _).mpr hname
  have hu : findUnknown ds = none := (findUnknown_eq_none_iff _).mpr hres
  rcases hp : peelAux ds ds.length [] with err | ord
  · obtain ⟨l, rfl⟩ := peelAux_error_cycle ds ds.length [] err hp
    have hb : buildGraph ds = .error (.CycleDetected l) := by
      simp only [buildGraph, hd, hu, hp]
    refine ⟨by simp [isCycleDetected, hb], ?_, ?_⟩
    · simp [executorCalls, runTrace, hb]
    · simp [producedReport, run, hb]
  · exact absurd hcyc (not_cyclic_of_ok_peel hname hp)

/-- Witness for C1 (amended): the self-dependent descriptor `x`. -/
theorem c1_cycle_detected_amended_witness :
    isCycleDetected (buildGraph selfLoopDs) = true ∧
    executorCalls selfLoopDs alwaysOk = 0 ∧
    producedReport (run selfLoopDs alwaysOk) = false := by
  apply c1_cycle_detected_amended selfLoopDs alwaysOk (by decide) (by decide)
  exact ⟨"x", Relation.TransGen.single
    ⟨⟨"x", "ctx", ["x"], [], false⟩, by decide, rfl, by decide⟩⟩

/-- C6 counterexample: `dupUnknownDs` contains an unresolved dependency
(`y` depends on the absent `z`), yet graph construction fails with
`DuplicateName`, not with `UnknownDependency`. -/
theorem c6_unknown_dependency_counterexample :
    (∃ d ∈ dupUnknownDs, ∃ m ∈ d.depends_on, m ∉ names dupUnknownDs) ∧
    buildGraph dupUnknownDs = .error (.DuplicateName "x") ∧
    isUnknownDependency (buildGraph dupUnknownDs) = false := by
  refine ⟨⟨⟨"y", "ctx", ["z"], [], false⟩, by decide, "z", by decide, by decide⟩,
    by rfl, by decide⟩

/-- C6 (amended): for every descriptor set with unique names containing a
descriptor whose `depends_on` names an entry with no matching descriptor,
graph construction fails with `UnknownDependency` before any build is
attempted. -/
theorem c6_unknown_dependency_amended (ds : List ImageDescriptor) (e : Executor)
    (hname : (names ds).Nodup)
    (hunk : ∃ d ∈ ds, ∃ m ∈ d.depends_on, m ∉ names ds) :
    isUnknownDependency (buildGraph ds) = true ∧
    executorCalls ds e = 0 ∧
    producedReport (run ds e) = false := by
  have hd : findDup (names ds) = none := (findDup_eq_none_iff _).mpr hname
  rcases hu : findUnknown ds with _ | m
  · exfalso
    obtain ⟨d, hdm, m, hm, hnot⟩ := hunk
    exact hnot ((findUnknown_eq_none_iff ds).mp hu d hdm m hm)
  · have hb : buildGraph ds = .error (.UnknownDependency m) := by
      simp only [buildGraph, hd, hu]
    exact ⟨by simp [isUnknownDependency, hb],
      by simp [executorCalls, runTrace, hb],
      by simp [producedReport, run, hb]⟩

/-- Witness for C6 (amended): descriptor `y` depending on the absent `z`. -/
theorem c6_unknown_dependency_amended_witness :
    isUnknownDependency (buildGraph unknownOnlyDs) = true ∧
    executorCalls unknownOnlyDs alwaysOk = 0 ∧
    producedReport (run unknownOnlyDs alwaysOk) = false :=
  c6_unknown_dependency_amended unknownOnlyDs alwaysOk (by decide)
    ⟨⟨"y", "ctx", ["z"], [], false⟩, by decide, "z", by decide, by decide⟩

/-! ### The scheduler-loop invariant -/

theorem loopInv_init (ds : List ImageDescriptor) (e : Executor) :
    LoopInv ds e [] initState := by
  refine ⟨?_, ?_, ?_, ?_, ?_, ?_, ?_⟩
  · intro n _
    rfl
  · intro n hn
    simp at hn
  · intro n hn
    simp at hn
  · intro n
    show Event.start n ∈ ([] : List Event) ↔ _
    simp [initState]
  · intro n st
    show Event.finish n st ∈ ([] : List Event) ↔ _
    simp only [List.not_mem_nil, false_iff]
    rintro ⟨h1, h2 | h2⟩ <;> rw [h2] at h1 <;> exact Status.noConfusion h1
  · intro n
    show Event.skip n ∈ ([] : List Event) ↔ _
    simp [initState]
  · intro t1 A t2 h
    have h2 : ([] : List Event) = t1 ++ Event.start A :: t2 := h
    exact absurd h2.symm (by simp)

/-- The declared dependencies of an already-processed node were themselves
processed earlier, and in particular differ from the node being processed
now. -/
theorem done_deps_mem {ds : List ImageDescriptor} {done rest : List String}
    {nval : String} (hsound : OrderSound ds (done ++ nval :: rest))
    (hnd : nval ∉ done) {n0 : String} (hn0 : n0 ∈ done) {d0 : ImageDescriptor}
    (hd0 : d0 ∈ ds) (hd0n : d0.name = n0) :
    ∀ m ∈ d0.depends_on, m ∈ done ∧ m ≠ nval := by
  intro m hm
  obtain ⟨a, b, hab⟩ := List.append_of_mem hn0
  have hdecomp : done ++ nval :: rest = a ++ n0 :: (b ++ nval :: rest) := by
    rw [hab]
    simp
  have hma : m ∈ a := hsound a n0 (b ++ nval :: rest) hdecomp d0 hd0 hd0n m hm
  have hmdone : m ∈ done := by
    rw [hab]
    exact List.mem_append_left _ hma
  exact ⟨hmdone, fun he => hnd (he ▸ hmdone)⟩

theorem loopInv_step_run {ds : List ImageDescriptor} {e : Executor}
    {done rest : List String} {s : RunState}
    (hname : (names ds).Nodup)
    {d : ImageDescriptor} (hd : d ∈ ds)
    (hsound : OrderSound ds (done ++ d.name :: rest))
    (hnodup : (done ++ d.name :: rest).Nodup)
    (hinv : LoopInv ds e done s)
    (hc : ∀ m ∈ d.depends_on, s.status m = Status.Succeeded)
    (st : Status)
    (hst : st = Status.Succeeded ∨ st = Status.Failed)
    (hstS : st = Status.Succeeded ↔ (execNode e d).success = true)
    (hstF : st = Status.Failed ↔ (execNode e d).success = false) :
    LoopInv ds e (done ++ [d.name])
      { status := fun x => if x = d.name then st else s.status x
        trace := s.trace ++ [Event.start d.name, Event.finish d.name st] } := by
  have hnd : d.name ∉ done := by
    have h1 := List.nodup_middle.mp hnodup
    exact fun hm => (List.nodup_cons.mp h1).1 (List.mem_append_left _ hm)
  have hdeps : ∀ m ∈ d.depends_on, m ∈ done ∧ m ≠ d.name := by
    intro m hm
    have hma : m ∈ done := hsound done d.name rest rfl d hd rfl m hm
    refine ⟨hma, ?_⟩
    intro he
    rw [he] at hma
    exact hnd hma
  refine ⟨?_, ?_, ?_, ?_, ?_, ?_, ?_⟩
  · -- pending_out
    intro x hx
    simp only [List.mem_append, List.mem_singleton, not_or] at hx
    show (if x = d.name then st else s.status x) = Status.Pending
    rw [if_neg hx.2]
    exact hinv.pending_out x hx.1
  · -- terminal_in
    intro x hx
    show Terminal (if x = d.name then st else s.status x)
    rcases List.mem_append.mp hx with hx | hx
    · have hxne : x ≠ d.name := by
        intro he
        rw [he] at hx
        exact hnd hx
      rw [if_neg hxne]
      exact hinv.terminal_in x hx
    · rw [List.mem_singleton.mp hx, if_pos rfl]
      rcases hst with h | h
      · exact Or.inl h
      · exact Or.inr (Or.inl h)
  · -- char
    intro x hx d0 hd0 hd0n
    rcases List.mem_append.mp hx with hx | hx
    · -- old node: statuses of x and of its dependencies are unchanged
      have hxne : x ≠ d.name := by
        intro he
        rw [he] at hx
        exact hnd hx
      have hdeps0 := done_deps_mem hsound hnd hx hd0 hd0n
      have hsx : (if x = d.name then st else s.status x) = s.status x := if_neg hxne
      have hsm : ∀ m ∈ d0.depends_on,
          (if m = d.name then st else s.status m) = s.status m :=
        fun m hm => if_neg (hdeps0 m hm).2
      obtain ⟨h1, h2, h3, h4⟩ := hinv.char x hx d0 hd0 hd0n
      refine ⟨?_, ?_, ?_, ?_⟩
      · show ((if x = d.name then st else s.status x) = Status.Succeeded ∨
            (if x = d.name then st else s.status x) = Status.Failed) ↔
          (∀ m ∈ d0.depends_on,
            (if m = d.name then st else s.status m) = Status.Succeeded)
        rw [hsx]
        constructor
        · intro h m hm
          rw [hsm m hm]
          exact h1.mp h m hm
        · intro h
          apply h1.mpr
          intro m hm
          rw [← hsm m hm]
          exact h m hm
      · show (if x = d.name then st else s.status x) = Status.Succeeded →
          (execNode e d0).success = true
        rw [hsx]
        exact h2
      · show (if x = d.name then st else s.status x) = Status.Failed →
          (execNode e d0).success = false
        rw [hsx]
        exact h3
      · show (if x = d.name then st else s.status x) = Status.Skipped ↔
          ∃ m ∈ d0.depends_on,
            (if m = d.name then st else s.status m) ≠ Status.Succeeded
        rw [hsx]
        constructor
        · intro h
          obtain ⟨m, hm, hmne⟩ := h4.mp h
          refine ⟨m, hm, ?_⟩
          rw [hsm m hm]
          exact hmne
        · rintro ⟨m, hm, hmne⟩
          apply h4.mpr
          refine ⟨m, hm, ?_⟩
          rw [← hsm m hm]
          exact hmne
    · -- the newly processed node
      rw [List.mem_singleton] at hx
      subst hx
      have hd0d : d0 = d := eq_of_name_eq hname hd0 hd hd0n
      subst hd0d
      have hsx : (if d0.name = d0.name then st else s.status d0.name) = st :=
        if_pos rfl
      refine ⟨?_, ?_, ?_, ?_⟩
      · apply iff_of_true
        · show (if d0.name = d0.name then st else s.status d0.name) =
              Status.Succeeded ∨
            (if d0.name = d0.name then st else s.status d0.name) = Status.Failed
          rw [hsx]
          exact hst
        · intro m hm
          show (if m = d0.name then st else s.status m) = Status.Succeeded
          rw [if_neg (hdeps m hm).2]
          exact hc m hm
      · show (if d0.name = d0.name then st else s.status d0.name) =
            Status.Succeeded → (execNode e d0).success = true
        rw [hsx]
        exact hstS.mp
      · show (if d0.name = d0.name then st else s.status d0.name) =
            Status.Failed → (execNode e d0).success = false
        rw [hsx]
        exact hstF.mp
      · apply iff_of_false
        · show ¬(if d0.name = d0.name then st else s.status d0.name) =
            Status.Skipped
          rw [hsx]
          rcases hst with h | h <;> rw [h] <;> simp
        · rintro ⟨m, hm, hmne⟩
          apply hmne
          show (if m = d0.name then st else s.status m) = Status.Succeeded
          rw [if_neg (hdeps m hm).2]
          exact hc m hm
  · -- trace_start
    intro x
    show Event.start x ∈ s.trace ++ [Event.start d.name, Event.finish d.name st] ↔
      ((if x = d.name then st else s.status x) = Status.Succeeded ∨
        (if x = d.name then st else s.status x) = Status.Failed)
    rw [List.mem_append]
    by_cases hx : x = d.name
    · rw [if_pos hx]
      apply iff_of_true
      · right
        rw [hx]
        simp
      · exact hst
    · have h2 : (Event.start x ∈ [Event.start d.name, Event.finish d.name st]) ↔
          False := by simp [hx]
      rw [h2, or_false, if_neg hx]
      exact hinv.trace_start x
  · -- trace_finish
    intro x stx
    show Event.finish x stx ∈ s.trace ++ [Event.start d.name, Event.finish d.name st] ↔
      ((if x = d.name then st else s.status x) = stx ∧
        (stx = Status.Succeeded ∨ stx = Status.Failed))
    rw [List.mem_append]
    by_cases hx : x = d.name
    · subst hx
      rw [if_pos rfl]
      have hpend : s.status d.name = Status.Pending := hinv.pending_out d.name hnd
      have hold : ¬Event.finish d.name stx ∈ s.trace := by
        rw [hinv.trace_finish d.name stx, hpend]
        rintro ⟨hh1, hh2 | hh2⟩ <;> rw [hh2] at hh1 <;> exact Status.noConfusion hh1
      constructor
      · rintro (h | h)
        · exact absurd h hold
        · simp only [List.mem_cons, List.not_mem_nil, or_false] at h
          rcases h with h | h
          · exact absurd h (by simp)
          · have hstx : stx = st := by
              injection h with _ hh
            subst hstx
            exact ⟨rfl, hst⟩
      · rintro ⟨hh1, _⟩
        right
        rw [← hh1]
        simp
    · have h2 : (Event.finish x stx ∈ [Event.start d.name, Event.finish d.name st]) ↔
          False := by simp [hx]
      rw [h2, or_false, if_neg hx]
      exact hinv.trace_finish x stx
  · -- trace_skip
    intro x
    show Event.skip x ∈ s.trace ++ [Event.start d.name, Event.finish d.name st] ↔
      (if x = d.name then st else s.status x) = Status.Skipped
    rw [List.mem_append]
    have h2 : (Event.skip x ∈ [Event.start d.name, Event.finish d.name st]) ↔
        False := by simp
    rw [h2, or_false]
    by_cases hx : x = d.name
    · subst hx
      rw [if_pos rfl]
      apply iff_of_false
      · rw [hinv.trace_skip d.name, hinv.pending_out d.name hnd]
        simp
      · rcases hst with h | h <;> rw [h] <;> simp
    · rw [if_neg hx]
      exact hinv.trace_skip x
  · -- dep_order
    intro t1 A t2 heq d0 hd0 hd0n m hm
    have heq' : s.trace ++ [Event.start d.name, Event.finish d.name st] =
        t1 ++ Event.start A :: t2 := heq
    rcases append_cons_cases s.trace [Event.start d.name, Event.finish d.name st]
      (Event.start A) t1 t2 heq' with ⟨t2a, h1, _⟩ | ⟨o1b, h1, h2⟩
    · exact hinv.dep_order t1 A t2a h1 d0 hd0 hd0n m hm
    · rcases o1b with _ | ⟨ev1, o1b⟩
      · obtain ⟨hA, _⟩ := List.cons.inj h2
        have hAd : A = d.name := (Event.start.inj hA).symm
        subst hAd
        have hd0d : d0 = d := eq_of_name_eq hname hd0 hd hd0n
        subst hd0d
        have hfin : Event.finish m Status.Succeeded ∈ s.trace :=
          (hinv.trace_finish m Status.Succeeded).mpr ⟨hc m hm, Or.inl rfl⟩
        rw [h1]
        simpa using hfin
      · rcases o1b with _ | ⟨ev2, o1b⟩
        · obtain ⟨_, htail⟩ := List.cons.inj h2
          obtain ⟨hbad, _⟩ := List.cons.inj htail
          exact Event.noConfusion hbad
        · obtain ⟨_, htail⟩ := List.cons.inj h2
          obtain ⟨_, htail2⟩ := List.cons.inj htail
          exact absurd htail2.symm (by simp)

theorem loopInv_step_skip {ds : List ImageDescriptor} {e : Executor}
    {done rest : List String} {s : RunState}
    (hname : (names ds).Nodup)
    {d : ImageDescriptor} (hd : d ∈ ds)
    (hsound : OrderSound ds (done ++ d.name :: rest))
    (hnodup : (done ++ d.name :: rest).Nodup)
    (hinv : LoopInv ds e done s)
    (hc : ¬∀ m ∈ d.depends_on, s.status m = Status.Succeeded) :
    LoopInv ds e (done ++ [d.name])
      { status := fun x => if x = d.name then Status.Skipped else s.status x
        trace := s.trace ++ [Event.skip d.name] } := by
  push_neg at hc
  obtain ⟨mw, hmw, hmwne⟩ := hc
  have hnd : d.name ∉ done := by
    have h1 := List.nodup_middle.mp hnodup
    exact fun hm => (List.nodup_cons.mp h1).1 (List.mem_append_left _ hm)
  have hdeps : ∀ m ∈ d.depends_on, m ∈ done ∧ m ≠ d.name := by
    intro m hm
    have hma : m ∈ done := hsound done d.name rest rfl d hd rfl m hm
    refine ⟨hma, ?_⟩
    intro he
    rw [he] at hma
    exact hnd hma
  refine ⟨?_, ?_, ?_, ?_, ?_, ?_, ?_⟩
  · -- pending_out
    intro x hx
    simp only [List.mem_append, List.mem_singleton, not_or] at hx
    show (if x = d.name then Status.Skipped else s.status x) = Status.Pending
    rw [if_neg hx.2]
    exact hinv.pending_out x hx.1
  · -- terminal_in
    intro x hx
    show Terminal (if x = d.name then Status.Skipped else s.status x)
    rcases List.mem_append.mp hx with hx | hx
    · have hxne : x ≠ d.name := by
        intro he
        rw [he] at hx
        exact hnd hx
      rw [if_neg hxne]
      exact hinv.terminal_in x hx
    · rw [List.mem_singleton.mp hx, if_pos rfl]
      exact Or.inr (Or.inr rfl)
  · -- char
    intro x hx d0 hd0 hd0n
    rcases List.mem_append.mp hx with hx | hx
    · have hxne : x ≠ d.name := by
        intro he
        rw [he] at hx
        exact hnd hx
      have hdeps0 := done_deps_mem hsound hnd hx hd0 hd0n
      have hsx : (if x = d.name then Status.Skipped else s.status x) = s.status x :=
        if_neg hxne
      have hsm : ∀ m ∈ d0.depends_on,
          (if m = d.name then Status.Skipped else s.status m) = s.status m :=
        fun m hm => if_neg (hdeps0 m hm).2
      obtain ⟨h1, h2, h3, h4⟩ := hinv.char x hx d0 hd0 hd0n
      refine ⟨?_, ?_, ?_, ?_⟩
      · show ((if x = d.name then Status.Skipped else s.status x) =
              Status.Succeeded ∨
            (if x = d.name then Status.Skipped else s.status x) = Status.Failed) ↔
          (∀ m ∈ d0.depends_on,
            (if m = d.name then Status.Skipped else s.status m) = Status.Succeeded)
        rw [hsx]
        constructor
        · intro h m hm
          rw [hsm m hm]
          exact h1.mp h m hm
        · intro h
          apply h1.mpr
          intro m hm
          rw [← hsm m hm]
          exact h m hm
      · show (if x = d.name then Status.Skipped else s.status x) =
            Status.Succeeded → (execNode e d0).success = true
        rw [hsx]
        exact h2
      · show (if x = d.name then Status.Skipped else s.status x) =
            Status.Failed → (execNode e d0).success = false
        rw [hsx]
        exact h3
      · show (if x = d.name then Status.Skipped else s.status x) =
            Status.Skipped ↔
          ∃ m ∈ d0.depends_on,
            (if m = d.name then Status.Skipped else s.status m) ≠ Status.Succeeded
        rw [hsx]
        constructor
        · intro h
          obtain ⟨m, hm, hmne⟩ := h4.mp h
          refine ⟨m, hm, ?_⟩
          rw [hsm m hm]
          exact hmne
        · rintro ⟨m, hm, hmne⟩
          apply h4.mpr
          refine ⟨m, hm, ?_⟩
          rw [← hsm m hm]
          exact hmne
    · -- the newly skipped node
      rw [List.mem_singleton] at hx
      subst hx
      have hd0d : d0 = d := eq_of_name_eq hname hd0 hd hd0n
      subst hd0d
      have hsx : (if d0.name = d0.name then Status.Skipped else s.status d0.name) =
          Status.Skipped := if_pos rfl
      refine ⟨?_, ?_, ?_, ?_⟩
      · apply iff_of_false
        · show ¬((if d0.name = d0.name then Status.Skipped else s.status d0.name) =
              Status.Succeeded ∨
            (if d0.name = d0.name then Status.Skipped else s.status d0.name) =
              Status.Failed)
          rw [hsx]
          rintro (h | h) <;> exact Status.noConfusion h
        · intro hall
          apply hmwne
          have h5 : (if mw = d0.name then Status.Skipped else s.status mw) =
              Status.Succeeded := hall mw hmw
          rw [if_neg (hdeps mw hmw).2] at h5
          exact h5
      · show (if d0.name = d0.name then Status.Skipped else s.status d0.name) =
            Status.Succeeded → (execNode e d0).success = true
        rw [hsx]
        intro h
        exact absurd h (by simp)
      · show (if d0.name = d0.name then Status.Skipped else s.status d0.name) =
            Status.Failed → (execNode e d0).success = false
        rw [hsx]
        intro h
        exact absurd h (by simp)
      · apply iff_of_true
        · show (if d0.name = d0.name then Status.Skipped else s.status d0.name) =
            Status.Skipped
          exact hsx
        · refine ⟨mw, hmw, ?_⟩
          show (if mw = d0.name then Status.Skipped else s.status mw) ≠
            Status.Succeeded
          rw [if_neg (hdeps mw hmw).2]
          exact hmwne
  · -- trace_start
    intro x
    show Event.start x ∈ s.trace ++ [Event.skip d.name] ↔
      ((if x = d.name then Status.Skipped else s.status x) = Status.Succeeded ∨
        (if x = d.name then Status.Skipped else s.status x) = Status.Failed)
    rw [List.mem_append]
    have h2 : (Event.start x ∈ [Event.skip d.name]) ↔ False := by simp
    rw [h2, or_false]
    by_cases hx : x = d.name
    · subst hx
      rw [if_pos rfl]
      apply iff_of_false
      · rw [hinv.trace_start d.name, hinv.pending_out d.name hnd]
        rintro (h | h) <;> exact Status.noConfusion h
      · rintro (h | h) <;> exact Status.noConfusion h
    · rw [if_neg hx]
      exact hinv.trace_start x
  · -- trace_finish
    intro x stx
    show Event.finish x stx ∈ s.trace ++ [Event.skip d.name] ↔
      ((if x = d.name then Status.Skipped else s.status x) = stx ∧
        (stx = Status.Succeeded ∨ stx = Status.Failed))
    rw [List.mem_append]
    have h2 : (Event.finish x stx ∈ [Event.skip d.name]) ↔ False := by simp
    rw [h2, or_false]
    by_cases hx : x = d.name
    · subst hx
      rw [if_pos rfl]
      apply iff_of_false
      · rw [hinv.trace_finish d.name stx, hinv.pending_out d.name hnd]
        rintro ⟨hh1, hh2 | hh2⟩ <;> rw [hh2] at hh1 <;> exact Status.noConfusion hh1
      · rintro ⟨hh1, hh2 | hh2⟩ <;> rw [hh2] at hh1 <;> exact Status.noConfusion hh1
    · rw [if_neg hx]
      exact hinv.trace_finish x stx
  · -- trace_skip
    intro x
    show Event.skip x ∈ s.trace ++ [Event.skip d.name] ↔
      (if x = d.name then Status.Skipped else s.status x) = Status.Skipped
    rw [List.mem_append]
    by_cases hx : x = d.name
    · subst hx
      rw [if_pos rfl]
      apply iff_of_true
      · right
        simp
      · rfl
    · have h2 : (Event.skip x ∈ [Event.skip d.name]) ↔ False := by simp [hx]
      rw [h2, or_false, if_neg hx]
      exact hinv.trace_skip x
  · -- dep_order
    intro t1 A t2 heq d0 hd0 hd0n m hm
    have heq' : s.trace ++ [Event.skip d.name] = t1 ++ Event.start A :: t2 := heq
    rcases append_cons_cases s.trace [Event.skip d.name]
      (Event.start A) t1 t2 heq' with ⟨t2a, h1, _⟩ | ⟨o1b, h1, h2⟩
    · exact hinv.dep_order t1 A t2a h1 d0 hd0 hd0n m hm
    · rcases o1b with _ | ⟨ev1, o1b⟩
      · obtain ⟨hbad, _⟩ := List.cons.inj h2
        exact Event.noConfusion hbad
      · obtain ⟨_, htail⟩ := List.cons.inj h2
        exact absurd htail.symm (by simp)

theorem execStep_inv {ds : List ImageDescriptor} {e : Executor}
    {done rest : List String} {n : String} {s : RunState}
    (hname : (names ds).Nodup)
    (hsound : OrderSound ds (done ++ n :: rest))
    (hnodup : (done ++ n :: rest).Nodup)
    {d : ImageDescriptor} (hd : d ∈ ds) (hdn : d.name = n)
    (hinv : LoopInv ds e done s) :
    LoopInv ds e (done ++ [n]) (execStep e d s) := by
  subst hdn
  by_cases hc : ∀ m ∈ d.depends_on, s.status m = Status.Succeeded
  · have hgoal := loopInv_step_run hname hd hsound hnodup hinv hc
      (if (execNode e d).success then Status.Succeeded else Status.Failed)
      (by by_cases h : (execNode e d).success = true <;> simp [h])
      (by by_cases h : (execNode e d).success = true <;> simp [h])
      (by by_cases h : (execNode e d).success = true <;> simp [h])
    unfold execStep
    rw [if_pos hc]
    exact hgoal
  · unfold execStep
    rw [if_neg hc]
    exact loopInv_step_skip hname hd hsound hnodup hinv hc

theorem runLoop_inv {ds : List ImageDescriptor} {e : Executor}
    (hname : (names ds).Nodup) :
    ∀ (rest done : List String) (s : RunState),
      OrderSound ds (done ++ rest) → (done ++ rest).Nodup →
      (∀ n ∈ rest, n ∈ names ds) → LoopInv ds e done s →
      LoopInv ds e (done ++ rest) (runLoop e ds rest s) := by
  intro rest
  induction rest with
  | nil =>
    intro done s _ _ _ hinv
    rw [List.append_nil]
    exact hinv
  | cons n rest ih =>
    intro done s hsound hnodup hmem hinv
    obtain ⟨d, hfind, hd, hdn⟩ := descOf_of_mem_names (hmem n (by simp))
    have hstep := execStep_inv hname hsound hnodup hd hdn hinv
    have happ : (done ++ [n]) ++ rest = done ++ n :: rest := by simp
    have h1 : OrderSound ds ((done ++ [n]) ++ rest) := by
      rw [happ]
      exact hsound
    have h2 : ((done ++ [n]) ++ rest).Nodup := by
      rw [happ]
      exact hnodup
    have h3 : ∀ m ∈ rest, m ∈ names ds := fun m hm => hmem m (by simp [hm])
    have hres := ih (done ++ [n]) (execStep e d s) h1 h2 h3 hstep
    rw [happ] at hres
    show LoopInv ds e (done ++ n :: rest) (runLoop e ds (n :: rest) s)
    simp only [runLoop, hfind]
    exact hres

/-- Everything the run of a successfully built graph guarantees: the loop
invariant at the end of the run, together with the properties of the
topological order. -/
theorem finalState_inv {ds : List ImageDescriptor} {e : Executor} {g : Graph}
    (h : buildGraph ds = .ok g) :
    LoopInv ds e g.order (finalState e g) ∧ OrderSound ds g.order ∧
    g.order.Nodup ∧ (∀ d ∈ ds, d.name ∈ g.order) ∧
    (∀ n ∈ g.order, n ∈ names ds) := by
  obtain ⟨hnodes, hname, _, hp⟩ := buildGraph_ok h
  have hsound := peelAux_ok_sound ds hname ds.length [] g.order (orderSound_nil ds) hp
  have hnodup := peelAux_ok_nodup ds hname ds.length [] g.order List.nodup_nil hp
  have hcompl := (peelAux_ok_complete ds ds.length [] g.order hp).2
  have hmemnames := peelAux_ok_mem_names ds ds.length [] g.order (by simp) hp
  have hinv := runLoop_inv (e := e) hname g.order [] initState
    (by rw [List.nil_append]; exact hsound)
    (by rw [List.nil_append]; exact hnodup)
    hmemnames (loopInv_init ds e)
  rw [List.nil_append] at hinv
  refine ⟨?_, hsound, hnodup, hcompl, hmemnames⟩
  unfold finalState
  rw [hnodes]
  exact hinv

/-! ### Claim theorem C3: dependency ordering of the run -/

/-- C3: for every run and every pair of nodes `A depends_on B`, `A` is never
started (moved to Building) until `B` has reached Succeeded: every occurrence
of `A`'s start event in the run trace is strictly preceded by `B`'s
Succeeded-finish event, so `A` is started at all only when every one of its
declared dependencies is Succeeded. -/
theorem c3_start_after_deps_succeeded :
    ∀ (ds : List ImageDescriptor) (e : Executor) (d : ImageDescriptor),
      d ∈ ds → ∀ B ∈ d.depends_on, ∀ t1 t2,
        runTrace ds e = t1 ++ Event.start d.name :: t2 →
        Event.finish B Status.Succeeded ∈ t1 := by
  intro ds e d hd B hB t1 t2 h
  unfold runTrace at h
  rcases hg : buildGraph ds with err | g
  · rw [hg] at h
    exact absurd h.symm (by simp)
  · rw [hg] at h
    obtain ⟨hinv, _, _, _, _⟩ := finalState_inv (e := e) hg
    exact hinv.dep_order t1 d.name t2 h d hd rfl B hB

/-- Witness for C3: in the run of the example set with the always-succeeding
executor, `app` is started only after `base` finished Succeeded. -/
theorem c3_start_after_deps_succeeded_witness :
    Event.finish "base" Status.Succeeded ∈
      [Event.start "base", Event.finish "base" Status.Succeeded,
       Event.start "tools", Event.finish "tools" Status.Succeeded] :=
  c3_start_after_deps_succeeded exampleDs alwaysOk dApp (by decide) "base"
    (by decide)
    [Event.start "base", Event.finish "base" Status.Succeeded,
     Event.start "tools", Event.finish "tools" Status.Succeeded]
    [Event.finish "app" Status.Succeeded] (by rfl)

/-! ### Skipped nodes trace back to a failure -/

theorem skipped_has_failed_ancestor {ds : List ImageDescriptor} {e : Executor}
    {g : Graph} (hg : buildGraph ds = .ok g) :
    ∀ n ∈ g.order, (finalState e g).status n = Status.Skipped →
      ∃ M, Relation.TransGen (DirectDep ds) n M ∧
        (finalState e g).status M = Status.Failed := by
  obtain ⟨hinv, hsound, hnodup, hcompl, hmemnames⟩ := finalState_inv (e := e) hg
  obtain ⟨_, hname, _, _⟩ := buildGraph_ok hg
  have main : ∀ r n, n ∈ g.order → rank g.order n = r →
      (finalState e g).status n = Status.Skipped →
      ∃ M, Relation.TransGen (DirectDep ds) n M ∧
        (finalState e g).status M = Status.Failed := by
    intro r
    induction r using Nat.strong_induction_on with
    | _ r ihr =>
      intro n hn hr hskip
      obtain ⟨d, _, hd, hdn⟩ := descOf_of_mem_names (hmemnames n hn)
      obtain ⟨_, _, _, hskipiff⟩ := hinv.char n hn d hd hdn
      obtain ⟨m, hm, hmne⟩ := hskipiff.mp hskip
      have hdd : DirectDep ds n m := ⟨d, hd, hdn, hm⟩
      have hrank : rank g.order m < rank g.order n :=
        rank_lt_of_directDep hsound hnodup hcompl hdd
      have hmord : m ∈ g.order := by
        obtain ⟨o1, o2, ho⟩ := List.append_of_mem hn
        have hmo1 : m ∈ o1 := hsound o1 n o2 ho d hd hdn m hm
        rw [ho]
        exact List.mem_append_left _ hmo1
      rcases hinv.terminal_in m hmord with hS | hF | hSk
      · exact absurd hS hmne
      · exact ⟨m, Relation.TransGen.single hdd, hF⟩
      · obtain ⟨M, hM1, hM2⟩ :=
          ihr (rank g.order m) (hr ▸ hrank) m hmord rfl hSk
        exact ⟨M, Relation.TransGen.head hdd hM1, hM2⟩
  intro n hn hskip
  exact main (rank g.order n) n hn rfl hskip

/-! ### Claim theorem C2: failure propagation -/

/-- C2: if node `B` reaches Failed, every transitive dependent of `B` ends
Skipped and is never started (the executor is not invoked for it); every node
that does not transitively depend on any Failed node reaches its normal
terminal state as decided by the executor alone; and the run still drives
every node to a terminal state (per-node errors never abort the run). -/
theorem c2_failure_propagation (ds : List ImageDescriptor) (e : Executor)
    (g : Graph) (hg : buildGraph ds = .ok g) (B : String)
    (hBfail : (finalState e g).status B = Status.Failed) :
    (∀ A, Relation.TransGen (DirectDep ds) A B →
      (finalState e g).status A = Status.Skipped ∧
        Event.start A ∉ (finalState e g).trace) ∧
    (∀ d ∈ ds, ¬(∃ M, Relation.TransGen (DirectDep ds) d.name M ∧
        (finalState e g).status M = Status.Failed) →
      (finalState e g).status d.name =
        (if (execNode e d).success then Status.Succeeded else Status.Failed)) ∧
    (∀ d ∈ ds, Terminal ((finalState e g).status d.name)) := by
  obtain ⟨hinv, hsound, hnodup, hcompl, hmemnames⟩ := finalState_inv (e := e) hg
  have up : ∀ a m, DirectDep ds a m →
      (finalState e g).status m ≠ Status.Succeeded →
      (finalState e g).status a = Status.Skipped := by
    rintro a m ⟨d, hd, rfl, hm⟩ hne
    have hord : d.name ∈ g.order := hcompl d hd
    obtain ⟨_, _, _, hskipiff⟩ := hinv.char d.name hord d hd rfl
    exact hskipiff.mpr ⟨m, hm, hne⟩
  refine ⟨?_, ?_, fun d hd => hinv.terminal_in d.name (hcompl d hd)⟩
  · intro A hAB
    have hskipA : (finalState e g).status A = Status.Skipped := by
      induction hAB using Relation.TransGen.head_induction_on with
      | base h => exact up _ _ h (by rw [hBfail]; simp)
      | ih h' _ ihh => exact up _ _ h' (by rw [ihh]; simp)
    refine ⟨hskipA, ?_⟩
    intro hstart
    have h2 := (hinv.trace_start A).mp hstart
    rw [hskipA] at h2
    rcases h2 with h2 | h2 <;> exact Status.noConfusion h2
  · intro d hd hnofail
    have hord : d.name ∈ g.order := hcompl d hd
    obtain ⟨_, hS, hF, _⟩ := hinv.char d.name hord d hd rfl
    rcases hinv.terminal_in d.name hord with h | h | h
    · rw [h, hS h]
      simp
    · rw [h, hF h]
      simp
    · exfalso
      obtain ⟨M, hM1, hM2⟩ := skipped_has_failed_ancestor hg d.name hord h
      exact hnofail ⟨M, hM1, hM2⟩

/-- Witness for C2: with the executor that fails `base`, the dependent `app`
is Skipped and never started. -/
theorem c2_failure_propagation_witness :
    (finalState failsBase gEx).status "app" = Status.Skipped ∧
      Event.start "app" ∉ (finalState failsBase gEx).trace :=
  (c2_failure_propagation exampleDs failsBase gEx (by rfl) "base" (by rfl)).1
    "app" (Relation.TransGen.single ⟨dApp, by decide, rfl, by decide⟩)

/-! ### Claim theorem C5: overall run outcome -/

/-- C5: for every run that terminates with a report, the overall outcome is
success if and only if every node's final status is Succeeded; any node whose
final status is Failed or Skipped makes the overall outcome failed. -/
theorem c5_overall_outcome (ds : List ImageDescriptor) (e : Executor)
    (g : Graph) (r : RunReport) (hg : buildGraph ds = .ok g)
    (hr : run ds e = .ok r) :
    (overallSuccess r = true ↔
      ∀ d ∈ ds, (finalState e g).status d.name = Status.Succeeded) ∧
    (∀ d ∈ ds, ((finalState e g).status d.name = Status.Failed ∨
        (finalState e g).status d.name = Status.Skipped) →
      overallSuccess r = false) := by
  obtain ⟨hnodes, _, _, _⟩ := buildGraph_ok hg
  have hrr : r = ⟨g.nodes.map (fun d => (d.name, (finalState e g).status d.name))⟩ := by
    simp only [run, hg] at hr
    exact (Except.ok.inj hr).symm
  subst hrr
  rw [hnodes]
  constructor
  · unfold overallSuccess
    simp only [List.all_eq_true, List.mem_map]
    constructor
    · intro h d hd
      have h2 := h (d.name, (finalState e g).status d.name) ⟨d, hd, rfl⟩
      simpa using h2
    · rintro h p ⟨d, hd, rfl⟩
      simp [h d hd]
  · intro d hd hbad
    unfold overallSuccess
    rw [List.all_eq_false]
    refine ⟨(d.name, (finalState e g).status d.name),
      List.mem_map_of_mem _ hd, ?_⟩
    rcases hbad with h | h <;> simp [h]

/-- Witness for C5: the all-Succeeded example run has a successful outcome. -/
theorem c5_overall_outcome_witness :
    overallSuccess rEx = true ↔
      ∀ d ∈ exampleDs, (finalState alwaysOk gEx).status d.name =
        Status.Succeeded :=
  (c5_overall_outcome exampleDs alwaysOk gEx rEx (by rfl) (by rfl)).1

/-! ### Claim theorem C8: idempotence with an always-succeeding executor -/

/-- With an executor for which every build, tag and push succeeds, every node
of a successfully built graph ends Succeeded. -/
theorem all_succeed_of_alwaysOk {ds : List ImageDescriptor} {g : Graph}
    (hg : buildGraph ds = .ok g) (e : Executor)
    (hb : ∀ d, e.buildOk d = true) (ht : ∀ d t, e.tagOk d t = true)
    (hp : ∀ d t, e.pushOk d t = true) :
    ∀ d ∈ ds, (finalState e g).status d.name = Status.Succeeded := by
  obtain ⟨hinv, hsound, hnodup, hcompl, hmemnames⟩ := finalState_inv (e := e) hg
  obtain ⟨_, _, hres, _⟩ := buildGraph_ok hg
  have hsucc : ∀ d, (execNode e d).success = true := by
    intro d
    simp [execNode, hb, ht, hp]
  have htarget : ∀ a b, Relation.TransGen (DirectDep ds) a b → b ∈ names ds := by
    intro a b h
    induction h with
    | single h1 =>
      obtain ⟨d, hd, _, hb1⟩ := h1
      exact hres d hd _ hb1
    | tail _ h2 _ =>
      obtain ⟨d, hd, _, hb2⟩ := h2
      exact hres d hd _ hb2
  intro d hd
  have hord : d.name ∈ g.order := hcompl d hd
  obtain ⟨_, _, hF, _⟩ := hinv.char d.name hord d hd rfl
  rcases hinv.terminal_in d.name hord with h | h | h
  · exact h
  · have h2 := hF h
    rw [hsucc d] at h2
    exact Bool.noConfusion h2
  · exfalso
    obtain ⟨M, hM1, hM2⟩ := skipped_has_failed_ancestor hg d.name hord h
    obtain ⟨dM, _, hdM, hdMn⟩ := descOf_of_mem_names (htarget d.name M hM1)
    have hMord : M ∈ g.order := hdMn ▸ hcompl dM hdM
    obtain ⟨_, _, hFM, _⟩ := hinv.char M hMord dM hdM hdMn
    have h2 := hFM hM2
    rw [hsucc dM] at h2
    exact Bool.noConfusion h2

/-- C8: running the orchestrator twice on the same descriptor set with an
executor that always succeeds yields identical RunReports, with Succeeded for
every node. -/
theorem c8_idempotent_all_succeed (ds : List ImageDescriptor) (e : Executor)
    (g : Graph) (r1 r2 : RunReport) (hg : buildGraph ds = .ok g)
    (hb : ∀ d, e.buildOk d = true) (ht : ∀ d t, e.tagOk d t = true)
    (hp : ∀ d t, e.pushOk d t = true)
    (h1 : run ds e = .ok r1) (h2 : run ds e = .ok r2) :
    r1 = r2 ∧ ∀ p ∈ r1.entries, p.2 = Status.Succeeded := by
  refine ⟨by rw [h1] at h2; exact Except.ok.inj h2, ?_⟩
  have hall := all_succeed_of_alwaysOk hg e hb ht hp
  obtain ⟨hnodes, _, _, _⟩ := buildGraph_ok hg
  have hrr : r1 = ⟨g.nodes.map (fun d => (d.name, (finalState e g).status d.name))⟩ := by
    simp only [run, hg] at h1
    exact (Except.ok.inj h1).symm
  subst hrr
  rintro p hp2
  rw [hnodes] at hp2
  simp only [List.mem_map] at hp2
  obtain ⟨d, hd, rfl⟩ := hp2
  exact hall d hd

/-- Witness for C8: the example run with `alwaysOk`, done twice. -/
theorem c8_idempotent_all_succeed_witness :
    rEx = rEx ∧ ∀ p ∈ rEx.entries, p.2 = Status.Succeeded :=
  c8_idempotent_all_succeed exampleDs alwaysOk gEx rEx rEx (by rfl)
    (fun _ => rfl) (fun _ _ => rfl) (fun _ _ => rfl) (by rfl) (by rfl)

end DockerMake
